import Mathlib

/-!
Verification of the Dynamic Tool Identity & Dispatch subsystem of
`src/shortcuts.ts` (an MCP server exposing macOS Siri shortcuts as tools).

Strings are modelled as `List Char`.  The JavaScript string operations used by
the source are embedded directly:
* `toLowerCase` on the ASCII range (`toLowerChar`),
* `replace(/[^a-z0-9_]/g, "_")` (`replaceDisallowed`),
* `replace(/_+/g, "_")` (`collapseUnd`),
* `replace(/^_|_$/g, "")` (`stripLeadingUnd` then `stripTrailingUnd`;
  the regex removes one leading and one trailing underscore),
* `substring(0, n)` (`List.take n`, which also models the clamping of a
  negative end index to `0` via truncated `Nat` subtraction),
* the template `` `_${counter}` `` (decimal rendering `natRep`).
-/

namespace Shortcuts

/-- ASCII lowercasing, as `toLowerCase` acts on the characters relevant here
(code points 65–90 map to 97–122; everything else is untouched). -/
def toLowerChar (c : Char) : Char :=
  if 65 ≤ c.toNat ∧ c.toNat ≤ 90 then Char.ofNat (c.toNat + 32) else c

/-- Characters admitted by the class `[a-z0-9_]` of the sanitizing regex. -/
def isAllowedChar (c : Char) : Bool :=
  (97 ≤ c.toNat && c.toNat ≤ 122) || (48 ≤ c.toNat && c.toNat ≤ 57) || c.toNat == 95

/-- Embedding of `.replace(/[^a-z0-9_]/g, "_")`. -/
def replaceDisallowed (l : List Char) : List Char :=
  l.map (fun c => if isAllowedChar c then c else '_')

/-- Embedding of `.replace(/_+/g, "_")`: each maximal run of underscores is
collapsed to a single underscore. -/
def collapseUnd : List Char → List Char
  | [] => []
  | [c] => [c]
  | c₁ :: c₂ :: rest =>
    if c₁ = '_' ∧ c₂ = '_' then collapseUnd (c₂ :: rest)
    else c₁ :: collapseUnd (c₂ :: rest)

/-- Removal of a single leading underscore (the `^_` alternative of
`.replace(/^_|_$/g, "")`). -/
def stripLeadingUnd : List Char → List Char
  | '_' :: rest => rest
  | l => l

/-- Removal of a single trailing underscore (the `_$` alternative of
`.replace(/^_|_$/g, "")`, and also `.replace(/_$/, "")`). -/
def stripTrailingUnd : List Char → List Char
  | [] => []
  | ['_'] => []
  | [c] => [c]
  | c :: rest => c :: stripTrailingUnd rest

/-- The fixed tool-name prefix `"run_shortcut_"` for dynamic shortcut tools. -/
def pfxChars : List Char := "run_shortcut_".toList

/-- `const maxSanitizedLength = maxToolNameLength - prefix.length`, i.e.
`64 - "run_shortcut_".length = 51`. -/
def maxSanitizedLength : Nat := 64 - pfxChars.length

/-- Embedding of `sanitizeShortcutName` from `src/shortcuts.ts`:
lowercase, replace disallowed characters by `_`, collapse underscore runs,
strip one leading and one trailing underscore, and if the result exceeds the
51-character budget, truncate and drop a trailing underscore left by the
truncation. -/
def sanitizeShortcutName (name : List Char) : List Char :=
  let sanitized :=
    stripTrailingUnd (stripLeadingUnd (collapseUnd (replaceDisallowed
      (name.map toLowerChar))))
  if maxSanitizedLength < sanitized.length then
    stripTrailingUnd (sanitized.take maxSanitizedLength)
  else sanitized

/-- Token well-formedness: only characters from `[a-z0-9_]`. -/
def allowedCharsOnly (l : List Char) : Bool := l.all isAllowedChar

/-- Token well-formedness: no leading underscore. -/
def noLeadingUnd : List Char → Bool
  | '_' :: _ => false
  | _ => true

/-- Token well-formedness: no trailing underscore. -/
def noTrailingUnd : List Char → Bool
  | [] => true
  | ['_'] => false
  | [_] => true
  | _ :: rest => noTrailingUnd rest

/-- Token well-formedness: no two consecutive underscores. -/
def noDoubleUnd : List Char → Bool
  | c₁ :: c₂ :: rest => !(c₁ == '_' && c₂ == '_') && noDoubleUnd (c₂ :: rest)
  | _ => true

/-- The full Tool Token constraint from the spec's data model: characters
restricted to `[a-z0-9_]` (hence lowercase), no underscore runs, no
leading/trailing underscore, and length within the 51-character budget. -/
def validToken (l : List Char) : Prop :=
  allowedCharsOnly l = true ∧ noDoubleUnd l = true ∧ noLeadingUnd l = true ∧
    noTrailingUnd l = true ∧ l.length ≤ maxSanitizedLength

instance : DecidablePred validToken := fun l => by
  unfold validToken; infer_instance

example : sanitizeShortcutName ("My Shortcut".toList) = "my_shortcut".toList := by decide
example : sanitizeShortcutName ("hello@world#test".toList) = "hello_world_test".toList := by decide
example : sanitizeShortcutName ("_hello_world_".toList) = "hello_world".toList := by decide
example : sanitizeShortcutName ("@#$%".toList) = [] := by decide
example : sanitizeShortcutName (List.replicate 60 'a') = List.replicate 51 'a' := by decide
example :
    sanitizeShortcutName (List.replicate 50 'a' ++ "_test".toList) =
      List.replicate 50 'a' := by decide

/-- The decimal digit character for `d` (`d ≤ 9` in all uses). -/
def digitChar (d : Nat) : Char :=
  if d = 0 then '0' else if d = 1 then '1' else if d = 2 then '2'
  else if d = 3 then '3' else if d = 4 then '4' else if d = 5 then '5'
  else if d = 6 then '6' else if d = 7 then '7' else if d = 8 then '8' else '9'

/-- Fuelled decimal rendering of a natural number; `fuel ≥ n` always provides
enough steps, and the fuel-0 fallback is never reached in that regime. -/
def natRepAux : Nat → Nat → List Char
  | 0, n => [digitChar (n % 10)]
  | fuel + 1, n =>
    if n < 10 then [digitChar n]
    else natRepAux fuel (n / 10) ++ [digitChar (n % 10)]

/-- Decimal rendering of a natural number, as produced by the template
`` `_${counter}` `` for a JavaScript number. -/
def natRep (n : Nat) : List Char := natRepAux n n

example : natRep 0 = ['0'] := by decide
example : natRep 10 = ['1', '0'] := by decide
example : natRep 137 = ['1', '3', '7'] := by decide

/-- The candidate built by one iteration of the collision loop of
`generateUniqueSanitizedName`: `suffix = "_" + counter`; if
`base.length + suffix.length` exceeds the budget the base is truncated with
`substring(0, maxLength - suffix.length)` before appending the suffix. -/
def mkCandidate (base : List Char) (k : Nat) : List Char :=
  let suffix := '_' :: natRep k
  if maxSanitizedLength < base.length + suffix.length then
    base.take (maxSanitizedLength - suffix.length) ++ suffix
  else base ++ suffix

/-- The sequence of values taken by the loop variable `uniqueSanitized`:
initially the sanitized base, then the candidate for each counter value. -/
def candSeq (base : List Char) : Nat → List Char
  | 0 => base
  | k + 1 => mkCandidate base (k + 1)

/-- The `while (existingSanitizedNames.has(uniqueSanitized))` loop of
`generateUniqueSanitizedName`, with explicit fuel.  `genAux_exits` below
proves that the fuel supplied by `generateUniqueSanitizedName` is always
sufficient, so the fuel-0 fallback is unreachable. -/
def genAux (base : List Char) (claimed : List (List Char)) :
    List Char → Nat → Nat → List Char
  | cur, _, 0 => cur
  | cur, counter, fuel + 1 =>
    if cur ∈ claimed then
      genAux base claimed (mkCandidate base counter) (counter + 1) fuel
    else cur

/-- Embedding of `generateUniqueSanitizedName` from `src/shortcuts.ts`:
starting from the sanitized base, bump a counter until the candidate is not
among the already-claimed names.  The fuel `claimed.length + 2` is provably
enough for the loop to exit via its guard (see `genAux_exits`). -/
def generateUniqueSanitizedName (originalName : List Char)
    (existingSanitizedNames : List (List Char)) : List Char :=
  let baseSanitized := sanitizeShortcutName originalName
  genAux baseSanitized existingSanitizedNames baseSanitized 1
    (existingSanitizedNames.length + 2)

example :
    generateUniqueSanitizedName ("My Shortcut".toList) [] = "my_shortcut".toList := by
  decide

example :
    generateUniqueSanitizedName ("My Shortcut".toList) ["my_shortcut".toList] =
      "my_shortcut_1".toList := by
  decide

example :
    generateUniqueSanitizedName ("My Shortcut".toList)
      ["my_shortcut".toList, "my_shortcut_1".toList, "my_shortcut_2".toList] =
      "my_shortcut_3".toList := by
  decide

example : generateUniqueSanitizedName ("@#$%".toList) [[]] = ['_', '1'] := by decide

example :
    generateUniqueSanitizedName (List.replicate 60 'a') [List.replicate 51 'a'] =
      List.replicate 49 'a' ++ ['_', '1'] := by
  decide

example :
    generateUniqueSanitizedName (List.replicate 60 'a')
      (List.replicate 51 'a' ::
        (List.range 9).map (fun k => List.replicate 49 'a' ++ '_' :: natRep (k + 1))) =
      List.replicate 48 'a' ++ ['_', '1', '0'] := by
  decide

/-! ## The identity registry (`shortcutMap`) and its refresh (`listShortcuts`) -/

/-- The module-level `shortcutMap : Map<string, string>`, modelled as an
insertion-ordered association list from shortcut name to sanitized token. -/
abbrev Registry := List (List Char × List Char)

/-- `Map.set`: updates the value in place for an existing key (keeping its
insertion position), otherwise appends a new entry. -/
def mapSet (m : Registry) (k v : List Char) : Registry :=
  match m with
  | [] => [(k, v)]
  | (k', v') :: rest =>
    if k' = k then (k, v) :: rest else (k', v') :: mapSet rest k v

/-- `Map.get`: the value stored for `k`, if any. -/
def mapGet (m : Registry) (k : List Char) : Option (List Char) :=
  match m with
  | [] => none
  | (k', v') :: rest => if k' = k then some v' else mapGet rest k

/-- The registry update performed by `listShortcuts` in `src/shortcuts.ts`
(lines 111–117): a fresh empty `existingSanitizedNames` set, then for each
enumerated name in order, assign `generateUniqueSanitizedName(name, existing)`,
`shortcutMap.set` the pair, and add the token to the set.  The pre-existing
map `m` is NOT cleared. -/
def refresh (m : Registry) (names : List (List Char)) : Registry :=
  (names.foldl
    (fun st name =>
      let u := generateUniqueSanitizedName name st.2
      (mapSet st.1 name u, st.2 ++ [u]))
    (m, ([] : List (List Char)))).1

/-- Structurally recursive form of `refresh`, used for induction. -/
def refreshAux (names : List (List Char)) (m : Registry)
    (claimed : List (List Char)) : Registry :=
  match names with
  | [] => m
  | n :: rest =>
    let u := generateUniqueSanitizedName n claimed
    refreshAux rest (mapSet m n u) (claimed ++ [u])

/-- The reverse lookup performed by the dynamic branch of the call handler:
`Array.from(shortcutMap.entries()).find(([_, value]) => value === sanitizedName)?.[0]`
— the first entry (in insertion order) whose token equals the argument. -/
def lookupByToken (m : Registry) (t : List Char) : Option (List Char) :=
  (m.find? (fun p => p.2 = t)).map (fun p => p.1)

/-! ## The call dispatcher (`CallToolRequestSchema` handler) -/

/-- Fixed tool name `"list_shortcuts"`. -/
def listShortcutsName : List Char := "list_shortcuts".toList

/-- Fixed tool name `"open_shortcut"`. -/
def openShortcutName : List Char := "open_shortcut".toList

/-- Fixed tool name `"run_shortcut"`. -/
def runShortcutName : List Char := "run_shortcut".toList

/-- `isBaseTool`: the requested name is one of the three fixed tools. -/
def isBaseTool (name : List Char) : Prop :=
  name = listShortcutsName ∨ name = openShortcutName ∨ name = runShortcutName

instance : DecidablePred isBaseTool := fun name => by
  unfold isBaseTool; infer_instance

/-- `isDynamicTool`: dynamic tools are enabled (`GENERATE_SHORTCUT_TOOLS`) and
the requested name starts with `"run_shortcut_"`. -/
def isDynamicTool (generateTools : Bool) (name : List Char) : Prop :=
  generateTools = true ∧ name.take pfxChars.length = pfxChars

instance : ∀ g n, Decidable (isDynamicTool g n) := fun g n => by
  unfold isDynamicTool; infer_instance

/-- Routing outcome of the `CallToolRequestSchema` handler. -/
inductive DispatchResult where
  | callListShortcuts : DispatchResult
  | callOpenShortcut : DispatchResult
  | callRunShortcut : DispatchResult
  | runDynamic (shortcutName : List Char) : DispatchResult
  | errMethodNotFound : DispatchResult
  | errInvalidParams : DispatchResult
deriving DecidableEq

/-- Embedding of the routing logic of the `CallToolRequestSchema` handler in
`createServer` (lines 337–399): unknown names fail with `MethodNotFound`;
the three fixed tools route directly; a dynamic name has the prefix stripped
(`name.replace("run_shortcut_", "")`, i.e. dropping the 13-character prefix)
and is reverse-looked-up in the registry, failing with `InvalidParams` when
no entry matches (the `if (!shortcutName)` falsy test also rejects an empty
found name). -/
def dispatch (generateTools : Bool) (m : Registry) (name : List Char) :
    DispatchResult :=
  if ¬ isBaseTool name ∧ ¬ isDynamicTool generateTools name then
    .errMethodNotFound
  else if name = listShortcutsName then .callListShortcuts
  else if name = openShortcutName then .callOpenShortcut
  else if name = runShortcutName then .callRunShortcut
  else if isDynamicTool generateTools name then
    let sanitizedName := name.drop pfxChars.length
    match lookupByToken m sanitizedName with
    | some shortcutName =>
      if shortcutName = [] then .errInvalidParams else .runDynamic shortcutName
    | none => .errInvalidParams
  else .errMethodNotFound

example : dispatch true [] "list_shortcuts".toList = .callListShortcuts := by decide
example : dispatch true [] "bogus".toList = .errMethodNotFound := by decide
example : dispatch false [] "run_shortcut_x".toList = .errMethodNotFound := by decide
example : dispatch true [] "run_shortcut_x".toList = .errInvalidParams := by decide
example :
    dispatch true [("My Shortcut".toList, "my_shortcut".toList)]
      "run_shortcut_my_shortcut".toList = .runDynamic ("My Shortcut".toList) := by
  decide

/-! ## Well-formedness of the sanitizer output -/

theorem replaceDisallowed_allowed (l : List Char) :
    allowedCharsOnly (replaceDisallowed l) = true := by
  rw [allowedCharsOnly, List.all_eq_true]
  intro c hc
  rcases List.mem_map.1 hc with ⟨d, _, hd⟩
  subst hd
  by_cases h : isAllowedChar d = true
  · simp [h]
  · simp only [h]
    simp only [if_false, Bool.false_eq_true, if_neg h]
    decide

theorem allowed_of_sublist {l l' : List Char} (hs : l'.Sublist l)
    (h : allowedCharsOnly l = true) : allowedCharsOnly l' = true := by
  rw [allowedCharsOnly, List.all_eq_true] at h ⊢
  exact fun c hc => h c (hs.mem hc)

theorem collapseUnd_sublist : ∀ l : List Char, (collapseUnd l).Sublist l := by
  intro l
  induction l with
  | nil => simp [collapseUnd]
  | cons c rest ih =>
    cases rest with
    | nil => simp [collapseUnd]
    | cons d r =>
      by_cases h : c = '_' ∧ d = '_'
      · simp only [collapseUnd, if_pos h]
        exact ih.cons _
      · simp only [collapseUnd, if_neg h]
        exact ih.cons₂ _

theorem noDoubleUnd_tail {c : Char} {rest : List Char}
    (h : noDoubleUnd (c :: rest) = true) : noDoubleUnd rest = true := by
  cases rest with
  | nil => rfl
  | cons d r =>
    simp only [noDoubleUnd, Bool.and_eq_true] at h
    exact h.2

theorem collapseUnd_cons : ∀ (rest : List Char) (c : Char),
    ∃ t, collapseUnd (c :: rest) = c :: t ∧ noDoubleUnd (c :: t) = true := by
  intro rest
  induction rest with
  | nil => exact fun c => ⟨[], by simp [collapseUnd], by simp [noDoubleUnd]⟩
  | cons d r ih =>
    intro c
    obtain ⟨t, ht, hnd⟩ := ih d
    by_cases h : c = '_' ∧ d = '_'
    · refine ⟨t, ?_, ?_⟩
      · rw [show collapseUnd (c :: d :: r) = collapseUnd (d :: r) by
          simp only [collapseUnd, if_pos h], ht, h.1, h.2]
      · rw [h.1, ← h.2]
        exact hnd
    · refine ⟨d :: t, ?_, ?_⟩
      · rw [show collapseUnd (c :: d :: r) = c :: collapseUnd (d :: r) by
          simp only [collapseUnd, if_neg h], ht]
      · simp only [noDoubleUnd, Bool.and_eq_true] at hnd ⊢
        refine ⟨?_, hnd⟩
        simp only [Bool.not_eq_true', Bool.and_eq_false_iff, beq_eq_false_iff_ne]
        by_cases hc : c = '_'
        · exact Or.inr fun hd => h ⟨hc, hd⟩
        · exact Or.inl hc

theorem collapseUnd_noDouble (l : List Char) :
    noDoubleUnd (collapseUnd l) = true := by
  cases l with
  | nil => rfl
  | cons c rest =>
    obtain ⟨t, ht, hnd⟩ := collapseUnd_cons rest c
    rw [ht]
    exact hnd

theorem noLeadingUnd_cons (c : Char) (rest : List Char) :
    noLeadingUnd (c :: rest) = true ↔ c ≠ '_' := by
  constructor
  · intro h hc
    subst hc
    simp [noLeadingUnd] at h
  · intro h
    unfold noLeadingUnd
    split
    · rename_i heq
      cases heq
      exact absurd rfl h
    · rfl

theorem stripLeadingUnd_nil : stripLeadingUnd [] = [] := rfl

theorem stripLeadingUnd_cons_und (rest : List Char) :
    stripLeadingUnd ('_' :: rest) = rest := rfl

theorem stripLeadingUnd_cons_ne {c : Char} (h : c ≠ '_') (rest : List Char) :
    stripLeadingUnd (c :: rest) = c :: rest := by
  unfold stripLeadingUnd
  split
  · rename_i heq
    cases heq
    exact absurd rfl h
  · rfl

theorem stripLeadingUnd_sublist (l : List Char) :
    (stripLeadingUnd l).Sublist l := by
  cases l with
  | nil => simp [stripLeadingUnd_nil]
  | cons c rest =>
    by_cases h : c = '_'
    · subst h
      rw [stripLeadingUnd_cons_und]
      exact (List.sublist_cons_self _ _)
    · rw [stripLeadingUnd_cons_ne h]

theorem stripLeadingUnd_noLead {l : List Char} (h : noDoubleUnd l = true) :
    noLeadingUnd (stripLeadingUnd l) = true := by
  cases l with
  | nil => rfl
  | cons c rest =>
    by_cases hc : c = '_'
    · subst hc
      rw [stripLeadingUnd_cons_und]
      cases rest with
      | nil => rfl
      | cons d r =>
        rw [noLeadingUnd_cons]
        simp only [noDoubleUnd, Bool.and_eq_true, Bool.not_eq_true',
          Bool.and_eq_false_iff, beq_eq_false_iff_ne] at h
        rcases h.1 with hbad | hd
        · exact absurd rfl hbad
        · exact hd
    · rw [stripLeadingUnd_cons_ne hc, noLeadingUnd_cons]
      exact hc

theorem stripLeadingUnd_noDouble {l : List Char} (h : noDoubleUnd l = true) :
    noDoubleUnd (stripLeadingUnd l) = true := by
  cases l with
  | nil => rfl
  | cons c rest =>
    by_cases hc : c = '_'
    · subst hc
      rw [stripLeadingUnd_cons_und]
      exact noDoubleUnd_tail h
    · rw [stripLeadingUnd_cons_ne hc]
      exact h

theorem stripTrailingUnd_nil : stripTrailingUnd [] = [] := rfl

theorem stripTrailingUnd_singleton_und : stripTrailingUnd ['_'] = [] := rfl

theorem stripTrailingUnd_singleton_ne {c : Char} (h : c ≠ '_') :
    stripTrailingUnd [c] = [c] := by
  unfold stripTrailingUnd
  split
  · rename_i heq
    cases heq
  · rename_i heq
    cases heq
    exact absurd rfl h
  · rename_i heq
    cases heq
    rfl
  · rename_i h3 heq
    cases heq
    exact absurd rfl h3

theorem stripTrailingUnd_cons₂ (c d : Char) (rest : List Char) :
    stripTrailingUnd (c :: d :: rest) = c :: stripTrailingUnd (d :: rest) := by
  conv_lhs => unfold stripTrailingUnd
  split
  · rename_i heq
    cases heq
  · rename_i heq
    cases heq
  · rename_i heq
    cases heq
  · rename_i h3 heq
    cases heq
    rfl

theorem noTrailingUnd_cons₂ (c d : Char) (rest : List Char) :
    noTrailingUnd (c :: d :: rest) = noTrailingUnd (d :: rest) := by
  conv_lhs => unfold noTrailingUnd
  split
  · rename_i heq
    cases heq
  · rename_i heq
    cases heq
  · rename_i heq
    cases heq
  · rename_i h3 heq
    cases heq
    rfl

theorem noTrailingUnd_singleton {c : Char} (h : c ≠ '_') :
    noTrailingUnd [c] = true := by
  unfold noTrailingUnd
  split
  · rename_i heq
    cases heq
  · rename_i heq
    cases heq
    exact absurd rfl h
  · rfl
  · rename_i h3 heq
    cases heq
    exact absurd rfl h3

theorem stripTrailingUnd_sublist : ∀ l : List Char,
    (stripTrailingUnd l).Sublist l := by
  intro l
  induction l with
  | nil => simp [stripTrailingUnd_nil]
  | cons c rest ih =>
    cases rest with
    | nil =>
      by_cases hc : c = '_'
      · subst hc
        rw [stripTrailingUnd_singleton_und]
        exact List.nil_sublist _
      · rw [stripTrailingUnd_singleton_ne hc]
    | cons d r =>
      rw [stripTrailingUnd_cons₂]
      exact ih.cons₂ _

theorem stripTrailingUnd_head : ∀ (c : Char) (rest : List Char),
    stripTrailingUnd (c :: rest) = [] ∨
      ∃ t, stripTrailingUnd (c :: rest) = c :: t := by
  intro c rest
  cases rest with
  | nil =>
    by_cases hc : c = '_'
    · subst hc
      exact Or.inl stripTrailingUnd_singleton_und
    · exact Or.inr ⟨[], stripTrailingUnd_singleton_ne hc⟩
  | cons d r => exact Or.inr ⟨_, stripTrailingUnd_cons₂ c d r⟩

theorem stripTrailingUnd_noTrail : ∀ l : List Char, noDoubleUnd l = true →
    noTrailingUnd (stripTrailingUnd l) = true := by
  intro l
  induction l with
  | nil => intro _; rfl
  | cons c rest ih =>
    intro h
    cases rest with
    | nil =>
      by_cases hc : c = '_'
      · subst hc
        rw [stripTrailingUnd_singleton_und]
        rfl
      · rw [stripTrailingUnd_singleton_ne hc]
        exact noTrailingUnd_singleton hc
    | cons d r =>
      rw [stripTrailingUnd_cons₂]
      rcases stripTrailingUnd_head d r with hempty | ⟨t, ht⟩
      · rw [hempty]
        -- `stripTrailingUnd (d :: r) = []` only when `d :: r = ['_']`
        have hd : d = '_' ∧ r = [] := by
          cases r with
          | nil =>
            by_cases hdu : d = '_'
            · exact ⟨hdu, rfl⟩
            · rw [stripTrailingUnd_singleton_ne hdu] at hempty
              cases hempty
          | cons e r' =>
            rw [stripTrailingUnd_cons₂] at hempty
            cases hempty
        have hcne : c ≠ '_' := by
          intro hcu
          rw [hcu, hd.1] at h
          simp [noDoubleUnd] at h
        exact noTrailingUnd_singleton hcne
      · rw [ht, noTrailingUnd_cons₂, ← ht]
        exact ih (noDoubleUnd_tail h)

theorem stripTrailingUnd_noLead : ∀ l : List Char, noLeadingUnd l = true →
    noLeadingUnd (stripTrailingUnd l) = true := by
  intro l h
  cases l with
  | nil => rfl
  | cons c rest =>
    have hc : c ≠ '_' := (noLeadingUnd_cons c rest).1 h
    cases rest with
    | nil =>
      rw [stripTrailingUnd_singleton_ne hc]
      exact h
    | cons d r =>
      rw [stripTrailingUnd_cons₂]
      exact (noLeadingUnd_cons _ _).2 hc

theorem stripTrailingUnd_noDouble : ∀ l : List Char, noDoubleUnd l = true →
    noDoubleUnd (stripTrailingUnd l) = true := by
  intro l
  induction l with
  | nil => intro _; rfl
  | cons c rest ih =>
    intro h
    cases rest with
    | nil =>
      by_cases hc : c = '_'
      · subst hc
        rw [stripTrailingUnd_singleton_und]
        rfl
      · rw [stripTrailingUnd_singleton_ne hc]
        exact h
    | cons d r =>
      rw [stripTrailingUnd_cons₂]
      rcases stripTrailingUnd_head d r with hempty | ⟨t, ht⟩
      · rw [hempty]
        rfl
      · rw [ht]
        have hrec := ih (noDoubleUnd_tail h)
        rw [ht] at hrec
        simp only [noDoubleUnd, Bool.and_eq_true] at h ⊢
        exact ⟨h.1, hrec⟩

theorem noDoubleUnd_take : ∀ (l : List Char) (n : Nat),
    noDoubleUnd l = true → noDoubleUnd (l.take n) = true := by
  intro l
  induction l with
  | nil => intro n _; simp [noDoubleUnd]
  | cons c rest ih =>
    intro n h
    cases n with
    | zero => rfl
    | succ m =>
      rw [List.take_succ_cons]
      cases rest with
      | nil => simp [noDoubleUnd]
      | cons d r =>
        cases m with
        | zero => simp [noDoubleUnd]
        | succ k =>
          rw [List.take_succ_cons]
          have hrec := ih (k + 1) (noDoubleUnd_tail h)
          rw [List.take_succ_cons] at hrec
          simp only [noDoubleUnd, Bool.and_eq_true] at h ⊢
          exact ⟨h.1, hrec⟩

theorem noLeadingUnd_take (l : List Char) (n : Nat)
    (h : noLeadingUnd l = true) : noLeadingUnd (l.take n) = true := by
  cases l with
  | nil => simp [noLeadingUnd]
  | cons c rest =>
    cases n with
    | zero => rfl
    | succ m =>
      rw [List.take_succ_cons]
      exact (noLeadingUnd_cons _ _).2 ((noLeadingUnd_cons c rest).1 h)

/-- All Tool Token constraints hold for the sanitizer output. -/
theorem sanitizeShortcutName_wf (name : List Char) :
    allowedCharsOnly (sanitizeShortcutName name) = true ∧
      noDoubleUnd (sanitizeShortcutName name) = true ∧
      noLeadingUnd (sanitizeShortcutName name) = true ∧
      noTrailingUnd (sanitizeShortcutName name) = true ∧
      (sanitizeShortcutName name).length ≤ maxSanitizedLength := by
  unfold sanitizeShortcutName
  set s₁ := collapseUnd (replaceDisallowed (name.map toLowerChar)) with hs₁
  set s₀ := stripTrailingUnd (stripLeadingUnd s₁) with hs₀
  have h₁allowed : allowedCharsOnly s₁ = true :=
    allowed_of_sublist (collapseUnd_sublist _) (replaceDisallowed_allowed _)
  have h₁nd : noDoubleUnd s₁ = true := collapseUnd_noDouble _
  have h₀allowed : allowedCharsOnly s₀ = true :=
    allowed_of_sublist
      ((stripTrailingUnd_sublist _).trans (stripLeadingUnd_sublist _)) h₁allowed
  have h₀nd : noDoubleUnd s₀ = true :=
    stripTrailingUnd_noDouble _ (stripLeadingUnd_noDouble h₁nd)
  have h₀nl : noLeadingUnd s₀ = true :=
    stripTrailingUnd_noLead _ (stripLeadingUnd_noLead h₁nd)
  have h₀nt : noTrailingUnd s₀ = true :=
    stripTrailingUnd_noTrail _ (stripLeadingUnd_noDouble h₁nd)
  by_cases hlen : maxSanitizedLength < s₀.length
  · rw [if_pos hlen]
    have htake_nd : noDoubleUnd (s₀.take maxSanitizedLength) = true :=
      noDoubleUnd_take _ _ h₀nd
    refine ⟨?_, ?_, ?_, ?_, ?_⟩
    · exact allowed_of_sublist
        ((stripTrailingUnd_sublist _).trans (List.take_sublist _ _)) h₀allowed
    · exact stripTrailingUnd_noDouble _ htake_nd
    · exact stripTrailingUnd_noLead _ (noLeadingUnd_take _ _ h₀nl)
    · exact stripTrailingUnd_noTrail _ htake_nd
    · calc (stripTrailingUnd (s₀.take maxSanitizedLength)).length
          ≤ (s₀.take maxSanitizedLength).length :=
            (stripTrailingUnd_sublist _).length_le
        _ ≤ maxSanitizedLength := by
            rw [List.length_take]
            exact min_le_left _ _
  · rw [if_neg hlen]
    exact ⟨h₀allowed, h₀nd, h₀nl, h₀nt, Nat.le_of_not_lt hlen⟩

/-! ## Each sanitizer stage is the identity on already-sanitized input -/

theorem isAllowedChar_ranges {c : Char} (h : isAllowedChar c = true) :
    (97 ≤ c.toNat ∧ c.toNat ≤ 122) ∨ (48 ≤ c.toNat ∧ c.toNat ≤ 57) ∨
      c.toNat = 95 := by
  unfold isAllowedChar at h
  simp only [Bool.or_eq_true, Bool.and_eq_true, decide_eq_true_eq,
    beq_iff_eq] at h
  tauto

theorem toLowerChar_allowed {c : Char} (h : isAllowedChar c = true) :
    toLowerChar c = c := by
  have hneg : ¬ (65 ≤ c.toNat ∧ c.toNat ≤ 90) := by
    rcases isAllowedChar_ranges h with ⟨a, b⟩ | ⟨a, b⟩ | a <;>
      (rintro ⟨x, y⟩; omega)
  unfold toLowerChar
  rw [if_neg hneg]

theorem map_toLowerChar_id {l : List Char} (h : allowedCharsOnly l = true) :
    l.map toLowerChar = l := by
  rw [allowedCharsOnly, List.all_eq_true] at h
  rw [List.map_congr_left (fun c hc => toLowerChar_allowed (h c hc))]
  exact List.map_id l

theorem replaceDisallowed_id {l : List Char} (h : allowedCharsOnly l = true) :
    replaceDisallowed l = l := by
  rw [allowedCharsOnly, List.all_eq_true] at h
  unfold replaceDisallowed
  rw [List.map_congr_left (fun c hc => if_pos (h c hc))]
  exact List.map_id l

theorem collapseUnd_id : ∀ l : List Char, noDoubleUnd l = true →
    collapseUnd l = l := by
  intro l
  induction l with
  | nil => intro _; rfl
  | cons c rest ih =>
    intro h
    cases rest with
    | nil => rfl
    | cons d r =>
      have hcd : ¬ (c = '_' ∧ d = '_') := by
        simp only [noDoubleUnd, Bool.and_eq_true, Bool.not_eq_true',
          Bool.and_eq_false_iff, beq_eq_false_iff_ne] at h
        rcases h.1 with hc | hd
        · exact fun hp => hc hp.1
        · exact fun hp => hd hp.2
      simp only [collapseUnd, if_neg hcd]
      rw [ih (noDoubleUnd_tail h)]

theorem stripLeadingUnd_id {l : List Char} (h : noLeadingUnd l = true) :
    stripLeadingUnd l = l := by
  cases l with
  | nil => rfl
  | cons c rest => exact stripLeadingUnd_cons_ne ((noLeadingUnd_cons c rest).1 h) rest

theorem noTrailingUnd_singleton_ne {c : Char} (h : noTrailingUnd [c] = true) :
    c ≠ '_' := by
  intro hc
  subst hc
  have : noTrailingUnd ['_'] = false := rfl
  rw [this] at h
  cases h

theorem stripTrailingUnd_id : ∀ l : List Char, noTrailingUnd l = true →
    stripTrailingUnd l = l := by
  intro l
  induction l with
  | nil => intro _; rfl
  | cons c rest ih =>
    intro h
    cases rest with
    | nil => exact stripTrailingUnd_singleton_ne (noTrailingUnd_singleton_ne h)
    | cons d r =>
      rw [stripTrailingUnd_cons₂, ih (by rw [← noTrailingUnd_cons₂ c d r]; exact h)]

/-- The sanitizer is the identity on any string already satisfying all of its
output constraints. -/
theorem sanitizeShortcutName_id {l : List Char}
    (hallowed : allowedCharsOnly l = true) (hnd : noDoubleUnd l = true)
    (hnl : noLeadingUnd l = true) (hnt : noTrailingUnd l = true)
    (hlen : l.length ≤ maxSanitizedLength) :
    sanitizeShortcutName l = l := by
  unfold sanitizeShortcutName
  rw [map_toLowerChar_id hallowed, replaceDisallowed_id hallowed,
    collapseUnd_id l hnd, stripLeadingUnd_id hnl, stripTrailingUnd_id l hnt,
    if_neg (Nat.not_lt.2 hlen)]

/-! ## Properties of the decimal rendering -/

theorem natRepAux_congr : ∀ n f g, n ≤ f → n ≤ g →
    natRepAux f n = natRepAux g n := by
  intro n
  induction n using Nat.strong_induction_on with
  | _ n ih =>
    intro f g hf hg
    match f, g with
    | 0, 0 => rfl
    | 0, g + 1 =>
      have hn : n = 0 := Nat.le_zero.1 hf
      subst hn
      simp [natRepAux, digitChar]
    | f + 1, 0 =>
      have hn : n = 0 := Nat.le_zero.1 hg
      subst hn
      simp [natRepAux, digitChar]
    | f + 1, g + 1 =>
      by_cases h10 : n < 10
      · simp [natRepAux, if_pos h10]
      · have hdiv : n / 10 < n := Nat.div_lt_self (by omega) (by omega)
        simp only [natRepAux, if_neg h10]
        rw [ih (n / 10) hdiv f g (by omega) (by omega)]

/-- Unfolding equation for `natRep`, free of the internal fuel. -/
theorem natRep_eq (n : Nat) : natRep n =
    if n < 10 then [digitChar n]
    else natRep (n / 10) ++ [digitChar (n % 10)] := by
  by_cases h10 : n < 10
  · rw [if_pos h10]
    unfold natRep
    match n, h10 with
    | 0, _ => rfl
    | n + 1, h => simp [natRepAux, if_pos h]
  · rw [if_neg h10]
    unfold natRep
    have hn : n = (n - 1) + 1 := by omega
    rw [hn]
    simp only [natRepAux, if_neg (hn ▸ h10)]
    rw [natRepAux_congr (((n - 1) + 1) / 10) (n - 1) (((n - 1) + 1) / 10)
      (by omega) le_rfl]

theorem digitChar_toNat (d : Nat) :
    48 ≤ (digitChar d).toNat ∧ (digitChar d).toNat ≤ 57 := by
  unfold digitChar
  repeat' split
  all_goals decide

theorem digitChar_ne_und (d : Nat) : digitChar d ≠ '_' := by
  intro h
  have := digitChar_toNat d
  rw [h] at this
  simp at this

theorem digitChar_allowed (d : Nat) : isAllowedChar (digitChar d) = true := by
  have h := digitChar_toNat d
  unfold isAllowedChar
  simp only [Bool.or_eq_true, Bool.and_eq_true, decide_eq_true_eq]
  omega

theorem natRep_ne_nil (n : Nat) : natRep n ≠ [] := by
  rw [natRep_eq]
  by_cases h10 : n < 10
  · simp [if_pos h10]
  · simp [if_neg h10]

theorem natRep_digits : ∀ n, ∀ c ∈ natRep n,
    48 ≤ c.toNat ∧ c.toNat ≤ 57 := by
  intro n
  induction n using Nat.strong_induction_on with
  | _ n ih =>
    intro c hc
    rw [natRep_eq] at hc
    by_cases h10 : n < 10
    · rw [if_pos h10] at hc
      rcases List.mem_singleton.1 hc with rfl
      exact digitChar_toNat n
    · rw [if_neg h10] at hc
      rcases List.mem_append.1 hc with hmem | hmem
      · exact ih (n / 10) (Nat.div_lt_self (by omega) (by omega)) c hmem
      · rcases List.mem_singleton.1 hmem with rfl
        exact digitChar_toNat _

theorem natRep_ne_und (n : Nat) : ∀ c ∈ natRep n, c ≠ '_' := by
  intro c hc h
  have := natRep_digits n c hc
  rw [h] at this
  simp at this

/-- The numeric value a digit character stands for. -/
def digitVal (c : Char) : Nat := c.toNat - 48

/-- The numeric value of a decimal digit string. -/
def decVal (l : List Char) : Nat := l.foldl (fun a c => 10 * a + digitVal c) 0

theorem decVal_append (l : List Char) (c : Char) :
    decVal (l ++ [c]) = 10 * decVal l + digitVal c := by
  unfold decVal
  rw [List.foldl_append]
  rfl

theorem digitVal_digitChar : ∀ d, d < 10 → digitVal (digitChar d) = d := by
  decide

theorem decVal_natRep : ∀ n, decVal (natRep n) = n := by
  intro n
  induction n using Nat.strong_induction_on with
  | _ n ih =>
    rw [natRep_eq]
    by_cases h10 : n < 10
    · rw [if_pos h10]
      show 10 * 0 + digitVal (digitChar n) = n
      rw [digitVal_digitChar n h10]
      omega
    · rw [if_neg h10, decVal_append,
        ih (n / 10) (Nat.div_lt_self (by omega) (by omega)),
        digitVal_digitChar (n % 10) (Nat.mod_lt n (by omega))]
      omega

theorem natRep_inj {a b : Nat} (h : natRep a = natRep b) : a = b := by
  have ha := decVal_natRep a
  rw [h, decVal_natRep b] at ha
  exact ha.symm

theorem natRep_len_le : ∀ n d, 1 ≤ d → n < 10 ^ d →
    (natRep n).length ≤ d := by
  intro n
  induction n using Nat.strong_induction_on with
  | _ n ih =>
    intro d hd hlt
    rw [natRep_eq]
    by_cases h10 : n < 10
    · rw [if_pos h10]
      simpa using hd
    · rw [if_neg h10, List.length_append, List.length_singleton]
      have hd2 : 2 ≤ d := by
        by_contra hcon
        have hd1 : d = 1 := by omega
        rw [hd1] at hlt
        simp at hlt
        omega
      have hrec : (natRep (n / 10)).length ≤ d - 1 := by
        refine ih (n / 10) (Nat.div_lt_self (by omega) (by omega)) (d - 1)
          (by omega) ?_
        rw [Nat.div_lt_iff_lt_mul (by omega : 0 < 10)]
        calc n < 10 ^ d := hlt
          _ = 10 ^ (d - 1) * 10 := by
              rw [← pow_succ]
              congr 1
              omega
      omega

theorem natRep_len_lower : ∀ n d, 10 ^ d ≤ n →
    d + 1 ≤ (natRep n).length := by
  intro n
  induction n using Nat.strong_induction_on with
  | _ n ih =>
    intro d hle
    rw [natRep_eq]
    by_cases h10 : n < 10
    · rw [if_pos h10]
      have hd : d = 0 := by
        by_contra hcon
        have : 10 ≤ 10 ^ d := by
          calc (10 : Nat) = 10 ^ 1 := (pow_one 10).symm
            _ ≤ 10 ^ d := Nat.pow_le_pow_right (by omega) (by omega)
        omega
      simp [hd]
    · rw [if_neg h10, List.length_append, List.length_singleton]
      cases d with
      | zero =>
        have := natRep_ne_nil (n / 10)
        have : 1 ≤ (natRep (n / 10)).length := List.length_pos.2 this
        omega
      | succ d' =>
        have hrec : d' + 1 ≤ (natRep (n / 10)).length := by
          refine ih (n / 10) (Nat.div_lt_self (by omega) (by omega)) d' ?_
          rw [Nat.le_div_iff_mul_le (by omega : 0 < 10)]
          calc 10 ^ d' * 10 = 10 ^ (d' + 1) := (pow_succ 10 d').symm
            _ ≤ n := hle
        omega

/-! ## Properties of the collision candidates and of the collision loop -/

theorem mkCandidate_decomp (base : List Char) (k : Nat) :
    mkCandidate base k = base ++ '_' :: natRep k ∨
      mkCandidate base k =
        base.take (maxSanitizedLength - (1 + (natRep k).length)) ++
          '_' :: natRep k := by
  unfold mkCandidate
  by_cases h : maxSanitizedLength < base.length + ('_' :: natRep k).length
  · right
    rw [if_pos h]
    simp [List.length_cons, Nat.add_comm]
  · left
    rw [if_neg h]

theorem takeWhile_all_append (p : Char → Bool) :
    ∀ (X : List Char) (y : Char) (Y : List Char),
      (∀ c ∈ X, p c = true) → p y = false →
      (X ++ y :: Y).takeWhile p = X := by
  intro X
  induction X with
  | nil =>
    intro y Y _ hy
    simp [List.takeWhile_cons, hy]
  | cons c X' ih =>
    intro y Y hall hy
    rw [List.cons_append, List.takeWhile_cons,
      if_pos (hall c (List.mem_cons_self c X')),
      ih y Y (fun d hd => hall d (List.mem_cons_of_mem c hd)) hy]

theorem mkCandidate_extract (base : List Char) (k : Nat) :
    ((mkCandidate base k).reverse.takeWhile (fun c => c != '_')) =
      (natRep k).reverse := by
  have hrev : ∀ t : List Char,
      (t ++ '_' :: natRep k).reverse =
        (natRep k).reverse ++ '_' :: t.reverse := by
    intro t
    rw [List.reverse_append, List.reverse_cons, List.append_assoc]
    rfl
  have hstep : ∀ t : List Char,
      ((t ++ '_' :: natRep k).reverse.takeWhile (fun c => c != '_')) =
        (natRep k).reverse := by
    intro t
    rw [hrev t]
    refine takeWhile_all_append _ _ _ _ ?_ (by simp)
    intro c hc
    have : c ≠ '_' := natRep_ne_und k c (List.mem_reverse.1 hc)
    simpa using this
  rcases mkCandidate_decomp base k with h | h <;> rw [h] <;> exact hstep _

theorem mkCandidate_inj {base : List Char} {j k : Nat}
    (h : mkCandidate base j = mkCandidate base k) : j = k := by
  have hj := mkCandidate_extract base j
  have hk := mkCandidate_extract base k
  rw [h, hk] at hj
  exact (natRep_inj (List.reverse_injective hj)).symm

theorem mkCandidate_length {base : List Char} {k : Nat}
    (h : (natRep k).length + 1 ≤ maxSanitizedLength) :
    (mkCandidate base k).length ≤ maxSanitizedLength := by
  unfold mkCandidate
  by_cases hc : maxSanitizedLength < base.length + ('_' :: natRep k).length
  · rw [if_pos hc]
    rw [List.length_append, List.length_take, List.length_cons]
    have := Nat.min_le_left (maxSanitizedLength - (('_' :: natRep k).length))
      base.length
    simp only [List.length_cons] at *
    omega
  · rw [if_neg hc]
    rw [List.length_append]
    omega

theorem genAux_spec : ∀ (fuel : Nat) (base : List Char)
    (claimed : List (List Char)) (i m : Nat), m < fuel →
    candSeq base (i + m) ∉ claimed →
    (∀ j, j < m → candSeq base (i + j) ∈ claimed) →
    genAux base claimed (candSeq base i) (i + 1) fuel = candSeq base (i + m) := by
  intro fuel
  induction fuel with
  | zero => intro base claimed i m hm; omega
  | succ f ih =>
    intro base claimed i m hm hfree hall
    cases m with
    | zero =>
      rw [Nat.add_zero] at hfree
      simp only [genAux, if_neg hfree, Nat.add_zero]
    | succ m' =>
      have h0 : candSeq base i ∈ claimed := by
        have := hall 0 (Nat.succ_pos m')
        rwa [Nat.add_zero] at this
      simp only [genAux, if_pos h0]
      have hcand : mkCandidate base (i + 1) = candSeq base (i + 1) := rfl
      rw [hcand]
      have hfree' : candSeq base ((i + 1) + m') ∉ claimed := by
        rwa [show (i + 1) + m' = i + (m' + 1) by omega]
      have hall' : ∀ j, j < m' → candSeq base ((i + 1) + j) ∈ claimed := by
        intro j hj
        rw [show (i + 1) + j = i + (j + 1) by omega]
        exact hall (j + 1) (by omega)
      have := ih base claimed (i + 1) m' (by omega) hfree' hall'
      rw [this, show (i + 1) + m' = i + (m' + 1) by omega]

theorem candSeq_pos (base : List Char) {k : Nat} (h : 1 ≤ k) :
    candSeq base k = mkCandidate base k := by
  cases k with
  | zero => omega
  | succ k' => rfl

/-- Pigeonhole: among the candidates for counters `1 … claimed.length + 1`,
at least one is not claimed (candidates for distinct counters are distinct). -/
theorem exists_cand_not_claimed (base : List Char)
    (claimed : List (List Char)) :
    ∃ k, 1 ≤ k ∧ k ≤ claimed.length + 1 ∧ mkCandidate base k ∉ claimed := by
  by_contra hcon
  push_neg at hcon
  have hmaps : ∀ k ∈ Finset.Icc 1 (claimed.length + 1),
      mkCandidate base k ∈ claimed.toFinset := by
    intro k hk
    rcases Finset.mem_Icc.1 hk with ⟨h1, h2⟩
    exact List.mem_toFinset.2 (hcon k h1 h2)
  have hinj : Set.InjOn (fun k => mkCandidate base k)
      (Finset.Icc 1 (claimed.length + 1)) :=
    fun a _ b _ hab => mkCandidate_inj hab
  have hcard := Finset.card_le_card_of_injOn _ hmaps hinj
  rw [Nat.card_Icc] at hcard
  have := claimed.toFinset_card_le
  omega

/-- Master characterization of `generateUniqueSanitizedName`: it returns the
element of the candidate sequence at the first index not in `claimed`, that
index is at most `claimed.length + 1` (so the supplied fuel never runs out),
and every earlier candidate is claimed. -/
theorem generate_spec (name : List Char) (claimed : List (List Char)) :
    ∃ m, m ≤ claimed.length + 1 ∧
      generateUniqueSanitizedName name claimed =
        candSeq (sanitizeShortcutName name) m ∧
      candSeq (sanitizeShortcutName name) m ∉ claimed ∧
      (∀ j, j < m → candSeq (sanitizeShortcutName name) j ∈ claimed) := by
  classical
  set base := sanitizeShortcutName name with hbase
  obtain ⟨k, hk1, hk2, hkfree⟩ := exists_cand_not_claimed base claimed
  have hex : ∃ m, candSeq base m ∉ claimed :=
    ⟨k, by rwa [candSeq_pos base hk1]⟩
  set m := Nat.find hex with hm
  have hmle : m ≤ claimed.length + 1 := by
    have : m ≤ k := Nat.find_min' hex (by rwa [candSeq_pos base hk1])
    omega
  refine ⟨m, hmle, ?_, Nat.find_spec hex, ?_⟩
  · have := genAux_spec (claimed.length + 2) base claimed 0 m (by omega)
      (by rw [Nat.zero_add]; exact Nat.find_spec hex)
      (fun j hj => by
        rw [Nat.zero_add]
        by_contra hjc
        exact absurd hj (Nat.not_lt.2 (Nat.find_min' hex hjc)))
    simp only [Nat.zero_add] at this
    unfold generateUniqueSanitizedName
    rw [← hbase]
    exact this
  · intro j hj
    by_contra hjc
    exact absurd hj (Nat.not_lt.2 (Nat.find_min' hex hjc))

theorem maxSanitizedLength_eq : maxSanitizedLength = 51 := by decide

theorem natRep_allowed (k : Nat) : ∀ c ∈ natRep k, isAllowedChar c = true := by
  intro c hc
  have h := natRep_digits k c hc
  unfold isAllowedChar
  simp only [Bool.or_eq_true, Bool.and_eq_true, decide_eq_true_eq, beq_iff_eq]
  omega

theorem mkCandidate_allowed {base : List Char} (k : Nat)
    (hbase : allowedCharsOnly base = true) :
    allowedCharsOnly (mkCandidate base k) = true := by
  have hsuffix : ∀ c ∈ ('_' :: natRep k), isAllowedChar c = true := by
    intro c hc
    rcases List.mem_cons.1 hc with rfl | hc'
    · decide
    · exact natRep_allowed k c hc'
  rw [allowedCharsOnly, List.all_eq_true] at hbase ⊢
  intro c hc
  rcases mkCandidate_decomp base k with h | h <;> rw [h] at hc <;>
    rcases List.mem_append.1 hc with hc' | hc'
  · exact hbase c hc'
  · exact hsuffix c hc'
  · exact hbase c ((List.take_sublist _ _).mem hc')
  · exact hsuffix c hc'

theorem noTrailingUnd_of_all_ne : ∀ l : List Char,
    (∀ c ∈ l, c ≠ '_') → noTrailingUnd l = true := by
  intro l
  induction l with
  | nil => intro _; rfl
  | cons c rest ih =>
    intro h
    cases rest with
    | nil => exact noTrailingUnd_singleton (h c (List.mem_singleton.2 rfl))
    | cons d r =>
      rw [noTrailingUnd_cons₂]
      exact ih fun e he => h e (List.mem_cons_of_mem c he)

theorem noTrailingUnd_append (X : List Char) :
    ∀ {Y : List Char}, Y ≠ [] → noTrailingUnd Y = true →
      noTrailingUnd (X ++ Y) = true := by
  induction X with
  | nil => intro Y _ hY; exact hY
  | cons c X' ih =>
    intro Y hne hY
    rw [List.cons_append]
    have hX'Y : X' ++ Y ≠ [] := by
      intro hcon
      exact hne (List.append_eq_nil.1 hcon).2
    obtain ⟨d, rest, hdr⟩ : ∃ d rest, X' ++ Y = d :: rest := by
      cases hxy : X' ++ Y with
      | nil => exact absurd hxy hX'Y
      | cons d rest => exact ⟨d, rest, rfl⟩
    rw [hdr, noTrailingUnd_cons₂, ← hdr]
    exact ih hne hY

theorem mkCandidate_noTrail (base : List Char) (k : Nat) :
    noTrailingUnd (mkCandidate base k) = true := by
  have hY : noTrailingUnd ('_' :: natRep k) = true := by
    obtain ⟨e, rest, her⟩ : ∃ e rest, natRep k = e :: rest := by
      cases hnr : natRep k with
      | nil => exact absurd hnr (natRep_ne_nil k)
      | cons e rest => exact ⟨e, rest, rfl⟩
    rw [her, noTrailingUnd_cons₂, ← her]
    exact noTrailingUnd_of_all_ne _ (natRep_ne_und k)
  rcases mkCandidate_decomp base k with h | h <;> rw [h] <;>
    exact noTrailingUnd_append _ (by simp) hY

/-- If the sanitized base has no leading underscore and some candidate also
has none, that candidate's counter has at most 49 decimal digits (otherwise
the base would have been truncated away entirely, leaving the underscore of
the suffix in front). -/
theorem mkCandidate_noLead_digits {base : List Char} {k : Nat}
    (hbase : noLeadingUnd base = true)
    (h : noLeadingUnd (mkCandidate base k) = true) :
    (natRep k).length ≤ 49 := by
  by_contra hcon
  push_neg at hcon
  have h50 : 50 ≤ (natRep k).length := hcon
  cases base with
  | nil =>
    rcases mkCandidate_decomp [] k with hd | hd <;>
      · simp only [List.take_nil, List.nil_append] at hd
        rw [hd] at h
        simp [noLeadingUnd] at h
  | cons b rest =>
    have hcond : maxSanitizedLength <
        (b :: rest).length + ('_' :: natRep k).length := by
      rw [maxSanitizedLength_eq, List.length_cons, List.length_cons]
      omega
    have heq : mkCandidate (b :: rest) k =
        (b :: rest).take (maxSanitizedLength - ('_' :: natRep k).length) ++
          '_' :: natRep k := by
      unfold mkCandidate
      rw [if_pos hcond]
    have hzero : maxSanitizedLength - ('_' :: natRep k).length = 0 := by
      rw [maxSanitizedLength_eq, List.length_cons]
      omega
    rw [hzero, List.take_zero, List.nil_append] at heq
    rw [heq] at h
    simp [noLeadingUnd] at h

/-- Claim C4 counterexample: on input `"@#$%"` with the empty token already
claimed, the resolver returns `"_1"`, which has a leading underscore — so the
resolver's output does not always satisfy the full Tool Token constraints. -/
theorem generate_leading_underscore_counterexample :
    generateUniqueSanitizedName ("@#$%".toList) [[]] = ['_', '1'] ∧
      noLeadingUnd ['_', '1'] = false ∧ ¬ validToken ['_', '1'] := by
  refine ⟨by decide, by decide, by decide⟩

/-- Claim C4 (amended): every resolver output is lowercase, uses only
`[a-z0-9_]`, and has no trailing underscore — but may have a leading
underscore or an underscore run at the truncation seam. -/
theorem generate_allowed_noTrail (name : List Char)
    (claimed : List (List Char)) :
    allowedCharsOnly (generateUniqueSanitizedName name claimed) = true ∧
      noTrailingUnd (generateUniqueSanitizedName name claimed) = true := by
  obtain ⟨m, _, heq, _, _⟩ := generate_spec name claimed
  obtain ⟨h1, _, _, h4, _⟩ := sanitizeShortcutName_wf name
  rw [heq]
  cases m with
  | zero => exact ⟨h1, h4⟩
  | succ m' =>
    rw [candSeq_pos _ (Nat.succ_pos m')]
    exact ⟨mkCandidate_allowed _ h1, mkCandidate_noTrail _ _⟩

/-- Claim C6: when every claimed entry is a well-formed Tool Token, the
resolver's result is fresh (not in `claimed`) and fits the 51-character
budget. -/
theorem generate_fresh_and_bounded (name : List Char)
    (claimed : List (List Char)) (hvalid : ∀ t ∈ claimed, validToken t) :
    generateUniqueSanitizedName name claimed ∉ claimed ∧
      (generateUniqueSanitizedName name claimed).length ≤ maxSanitizedLength := by
  obtain ⟨m, _, heq, hfree, hall⟩ := generate_spec name claimed
  obtain ⟨_, _, hnl, _, hlen⟩ := sanitizeShortcutName_wf name
  refine ⟨heq ▸ hfree, ?_⟩
  rw [heq]
  cases m with
  | zero => exact hlen
  | succ m' =>
    rw [candSeq_pos _ (Nat.succ_pos m')]
    refine mkCandidate_length ?_
    rw [maxSanitizedLength_eq]
    have hdig : (natRep (m' + 1)).length ≤ 50 := by
      cases m' with
      | zero => decide
      | succ m'' =>
        -- the previous candidate was claimed, hence a valid token with no
        -- leading underscore, which bounds the previous counter's digits
        have hprev : candSeq (sanitizeShortcutName name) (m'' + 1) ∈ claimed :=
          hall (m'' + 1) (by omega)
        rw [candSeq_pos _ (Nat.succ_pos m'')] at hprev
        have hptoken := hvalid _ hprev
        have hpnl : noLeadingUnd
            (mkCandidate (sanitizeShortcutName name) (m'' + 1)) = true :=
          hptoken.2.2.1
        have hpd : (natRep (m'' + 1)).length ≤ 49 :=
          mkCandidate_noLead_digits hnl hpnl
        -- from at most 49 digits conclude the counter is below 10^49
        have hlt : m'' + 1 < 10 ^ 49 := by
          by_contra hge
          push_neg at hge
          have := natRep_len_lower (m'' + 1) 49 ?_
          · omega
          · exact hge
        have hlt2 : m'' + 2 < 10 ^ 50 := by
          have : (10 : Nat) ^ 49 < 10 ^ 50 :=
            Nat.pow_lt_pow_right (by omega) (by omega)
          omega
        exact natRep_len_le (m'' + 2) 50 (by omega) hlt2
    show (natRep (m' + 1)).length + 1 ≤ 51
    omega

/-- Claim C7: the collision loop terminates — candidates for distinct
counters are distinct, and some counter in `1 … claimed.length + 1` yields an
unclaimed candidate, so the loop cannot run forever. -/
theorem collision_loop_terminates (name : List Char)
    (claimed : List (List Char)) :
    (∀ j k, 1 ≤ j → 1 ≤ k →
      mkCandidate (sanitizeShortcutName name) j =
        mkCandidate (sanitizeShortcutName name) k → j = k) ∧
    (∃ k, 1 ≤ k ∧ k ≤ claimed.length + 1 ∧
      mkCandidate (sanitizeShortcutName name) k ∉ claimed) := by
  exact ⟨fun j k _ _ h => mkCandidate_inj h,
    exists_cand_not_claimed _ claimed⟩

/-- Claim C8: the ninth-collision scenario — with `"a"*51` and
`"a"*49 + "_k"` (k = 1…9) claimed, resolving `"a"*60` yields
`"a"*48 + "_10"`, of length exactly 51. -/
theorem generate_tenth_collision_scenario :
    generateUniqueSanitizedName (List.replicate 60 'a')
        (List.replicate 51 'a' ::
          (List.range 9).map
            (fun k => List.replicate 49 'a' ++ '_' :: natRep (k + 1))) =
      List.replicate 48 'a' ++ ['_', '1', '0'] ∧
    (List.replicate 48 'a' ++ ['_', '1', '0'] : List Char).length = 51 := by
  refine ⟨by decide, by decide⟩

/-- Claim C5: the sanitizer's output always satisfies every Tool Token
constraint, and prefixing it with `"run_shortcut_"` stays within 64
characters. -/
theorem sanitize_output_constraints (s : List Char) :
    allowedCharsOnly (sanitizeShortcutName s) = true ∧
      noLeadingUnd (sanitizeShortcutName s) = true ∧
      noTrailingUnd (sanitizeShortcutName s) = true ∧
      noDoubleUnd (sanitizeShortcutName s) = true ∧
      (sanitizeShortcutName s).length ≤ maxSanitizedLength ∧
      (pfxChars ++ sanitizeShortcutName s).length ≤ 64 := by
  obtain ⟨h1, h2, h3, h4, h5⟩ := sanitizeShortcutName_wf s
  refine ⟨h1, h3, h4, h2, h5, ?_⟩
  rw [List.length_append]
  have hp : pfxChars.length = 13 := by decide
  have hm : maxSanitizedLength = 51 := maxSanitizedLength_eq
  omega

/-- Claim C10: the sanitizer is idempotent. -/
theorem sanitize_idempotent (s : List Char) :
    sanitizeShortcutName (sanitizeShortcutName s) = sanitizeShortcutName s := by
  obtain ⟨h1, h2, h3, h4, h5⟩ := sanitizeShortcutName_wf s
  exact sanitizeShortcutName_id h1 h2 h3 h4 h5

/-! ## Registry lemmas -/

theorem generate_not_mem (name : List Char) (claimed : List (List Char)) :
    generateUniqueSanitizedName name claimed ∉ claimed := by
  obtain ⟨m, _, heq, hfree, _⟩ := generate_spec name claimed
  exact heq ▸ hfree

theorem mapGet_mapSet_same (m : Registry) (k v : List Char) :
    mapGet (mapSet m k v) k = some v := by
  induction m with
  | nil => simp [mapSet, mapGet]
  | cons p rest ih =>
    by_cases h : p.1 = k
    · simp [mapSet, mapGet, h]
    · simp only [mapSet, mapGet]
      rw [if_neg h]
      simp only [mapGet]
      rw [if_neg h]
      exact ih

theorem mapGet_mapSet_other (m : Registry) {k k' : List Char} (v : List Char)
    (h : k' ≠ k) : mapGet (mapSet m k v) k' = mapGet m k' := by
  induction m with
  | nil =>
    simp only [mapSet, mapGet]
    rw [if_neg fun hc => h hc.symm]
  | cons p rest ih =>
    by_cases hp : p.1 = k
    · simp only [mapSet]
      rw [if_pos hp]
      simp only [mapGet]
      rw [if_neg fun hc => h hc.symm, if_neg (by rw [hp]; exact fun hc => h hc.symm)]
    · simp only [mapSet]
      rw [if_neg hp]
      simp only [mapGet]
      by_cases hk' : p.1 = k'
      · rw [if_pos hk', if_pos hk']
      · rw [if_neg hk', if_neg hk']
        exact ih

theorem refresh_eq_refreshAux : ∀ (names : List (List Char)) (m : Registry)
    (c : List (List Char)),
    (names.foldl
      (fun st name =>
        let u := generateUniqueSanitizedName name st.2
        (mapSet st.1 name u, st.2 ++ [u]))
      (m, c)).1 = refreshAux names m c := by
  intro names
  induction names with
  | nil => intro m c; rfl
  | cons n rest ih =>
    intro m c
    rw [List.foldl_cons]
    exact ih _ _

theorem refresh_eq (m : Registry) (names : List (List Char)) :
    refresh m names = refreshAux names m [] := by
  unfold refresh
  exact refresh_eq_refreshAux names m []

theorem refreshAux_not_mem : ∀ (names : List (List Char)) (m : Registry)
    (c : List (List Char)) (n : List Char), n ∉ names →
    mapGet (refreshAux names m c) n = mapGet m n := by
  intro names
  induction names with
  | nil => intro m c n _; rfl
  | cons nn rest ih =>
    intro m c n hn
    have hne : n ≠ nn := fun h => hn (h ▸ List.mem_cons_self nn rest)
    have hrest : n ∉ rest := fun h => hn (List.mem_cons_of_mem nn h)
    simp only [refreshAux]
    rw [ih _ _ _ hrest, mapGet_mapSet_other _ _ hne]

theorem refreshAux_mem_indep : ∀ (names : List (List Char))
    (m₁ m₂ : Registry) (c : List (List Char)) (n : List Char), n ∈ names →
    mapGet (refreshAux names m₁ c) n = mapGet (refreshAux names m₂ c) n := by
  intro names
  induction names with
  | nil => intro m₁ m₂ c n hn; cases hn
  | cons nn rest ih =>
    intro m₁ m₂ c n hn
    simp only [refreshAux]
    by_cases hrest : n ∈ rest
    · exact ih _ _ _ _ hrest
    · have hnn : n = nn := by
        rcases List.mem_cons.1 hn with h | h
        · exact h
        · exact absurd h hrest
      subst hnn
      rw [refreshAux_not_mem _ _ _ _ hrest, refreshAux_not_mem _ _ _ _ hrest,
        mapGet_mapSet_same, mapGet_mapSet_same]

/-- Claim C1 counterexample: `refresh` does NOT clear prior entries.  After
`refresh(["X"])` followed by `refresh(["Y"])`, the entry for `"X"` — not
enumerated in the second refresh — still exists, so the second registry is
not just the assignments derived from `["Y"]`. -/
theorem refresh_no_clear_counterexample :
    mapGet (refresh (refresh [] [['x']]) [['y']]) ['x'] = some ['x'] ∧
      (['x'] : List Char) ∉ [(['y'] : List Char)] ∧
      refresh (refresh [] [['x']]) [['y']] ≠ refresh [] [['y']] := by
  refine ⟨by decide, by decide, by decide⟩

/-- Claim C1 (amended): `refresh(names)` upserts — each enumerated name ends
up with the assignment computed from `names` alone (the claimed set is seeded
empty, so the result for enumerated names is as if the registry had been
empty), while entries for names not enumerated survive unchanged. -/
theorem refresh_upsert (m : Registry) (names : List (List Char))
    (n : List Char) :
    (n ∈ names → mapGet (refresh m names) n = mapGet (refresh [] names) n) ∧
      (n ∉ names → mapGet (refresh m names) n = mapGet m n) := by
  rw [refresh_eq m names, refresh_eq [] names]
  exact ⟨fun h => refreshAux_mem_indep names m [] [] n h,
    fun h => refreshAux_not_mem names m [] n h⟩

/-- The tokens of the registry's live entries, in insertion order. -/
def registryTokens (m : Registry) : List (List Char) := m.map (fun p => p.2)

theorem registryTokens_mapSet_mem (m : Registry) (k v : List Char) :
    ∀ t ∈ registryTokens (mapSet m k v), t = v ∨ t ∈ registryTokens m := by
  induction m with
  | nil =>
    intro t ht
    simp [mapSet, registryTokens] at ht
    exact Or.inl ht
  | cons p rest ih =>
    intro t ht
    by_cases hp : p.1 = k
    · simp only [mapSet, if_pos hp, registryTokens, List.map_cons,
        List.mem_cons] at ht
      rcases ht with h | h
      · exact Or.inl h
      · exact Or.inr (by simp [registryTokens]; exact Or.inr (by
          simpa [registryTokens] using h))
    · simp only [mapSet, if_neg hp, registryTokens, List.map_cons,
        List.mem_cons] at ht
      rcases ht with h | h
      · exact Or.inr (by simp [registryTokens, h])
      · rcases ih t (by simpa [registryTokens] using h) with h' | h'
        · exact Or.inl h'
        · exact Or.inr (by simp [registryTokens] at h' ⊢; exact Or.inr h')

theorem registryTokens_mapSet_nodup {m : Registry} {k v : List Char}
    (hnd : (registryTokens m).Nodup) (hv : v ∉ registryTokens m) :
    (registryTokens (mapSet m k v)).Nodup := by
  induction m with
  | nil => simp [mapSet, registryTokens]
  | cons p rest ih =>
    have hndr : (registryTokens rest).Nodup := by
      simpa [registryTokens] using hnd.of_cons
    have hp2 : p.2 ∉ registryTokens rest := by
      simp only [registryTokens, List.map_cons, List.nodup_cons] at hnd
      exact hnd.1
    have hvrest : v ∉ registryTokens rest := by
      intro hc
      exact hv (by simp [registryTokens]; exact Or.inr (by
        simpa [registryTokens] using hc))
    have hvp : v ≠ p.2 := by
      intro hc
      exact hv (by simp [registryTokens, hc])
    by_cases hpk : p.1 = k
    · simp only [mapSet, if_pos hpk, registryTokens, List.map_cons,
        List.nodup_cons]
      exact ⟨by simpa [registryTokens] using hvrest, hndr⟩
    · simp only [mapSet, if_neg hpk, registryTokens, List.map_cons,
        List.nodup_cons]
      refine ⟨?_, by simpa [registryTokens] using ih hndr hvrest⟩
      intro hc
      rcases registryTokens_mapSet_mem rest k v p.2
          (by simpa [registryTokens] using hc) with h | h
      · exact hvp h.symm
      · exact hp2 h

theorem refreshAux_tokens_nodup : ∀ (names : List (List Char)) (m : Registry)
    (c : List (List Char)), (∀ t ∈ registryTokens m, t ∈ c) →
    (registryTokens m).Nodup → (registryTokens (refreshAux names m c)).Nodup := by
  intro names
  induction names with
  | nil => intro m c _ hnd; exact hnd
  | cons n rest ih =>
    intro m c hsub hnd
    simp only [refreshAux]
    set u := generateUniqueSanitizedName n c with hu
    have hufresh : u ∉ c := generate_not_mem n c
    have humem : u ∉ registryTokens m := fun hc => hufresh (hsub u hc)
    refine ih _ _ ?_ (registryTokens_mapSet_nodup hnd humem)
    intro t ht
    rcases registryTokens_mapSet_mem m n u t ht with h | h
    · exact List.mem_append.2 (Or.inr (by simp [h]))
    · exact List.mem_append.2 (Or.inl (hsub t h))

/-- Claim C2 counterexample: after `refresh(["x"])` then `refresh(["x!"])`
(whose name sanitizes to the same token `"x"` while the claimed set is seeded
empty), two live entries share the token `"x"`. -/
theorem refresh_duplicate_token_counterexample :
    mapGet (refresh (refresh [] [['x']]) [['x', '!']]) ['x'] = some ['x'] ∧
      mapGet (refresh (refresh [] [['x']]) [['x', '!']]) ['x', '!'] =
        some ['x'] ∧
      (['x'] : List Char) ≠ ['x', '!'] ∧
      ¬ (registryTokens (refresh (refresh [] [['x']]) [['x', '!']])).Nodup := by
  refine ⟨by decide, by decide, by decide, by decide⟩

/-- Claim C2 (amended): after a single refresh starting from the empty
registry, no two live entries share a token. -/
theorem refresh_tokens_nodup (names : List (List Char)) :
    (registryTokens (refresh [] names)).Nodup := by
  rw [refresh_eq]
  exact refreshAux_tokens_nodup names [] [] (by simp [registryTokens])
    (by simp [registryTokens])

theorem mapGet_mem : ∀ (m : Registry) (n t : List Char),
    mapGet m n = some t → (n, t) ∈ m := by
  intro m
  induction m with
  | nil => intro n t h; cases h
  | cons p rest ih =>
    intro n t h
    simp only [mapGet] at h
    by_cases hp : p.1 = n
    · rw [if_pos hp] at h
      have : p = (n, t) := by
        cases p
        cases h
        simp_all
      exact this ▸ List.mem_cons_self p rest
    · rw [if_neg hp] at h
      exact List.mem_cons_of_mem p (ih n t h)

theorem find?_token_of_nodup : ∀ (m : Registry) (n t : List Char),
    (n, t) ∈ m → (registryTokens m).Nodup →
    m.find? (fun p => p.2 = t) = some (n, t) := by
  intro m
  induction m with
  | nil => intro n t h; cases h
  | cons p rest ih =>
    intro n t hmem hnd
    have hndr : (registryTokens rest).Nodup := by
      simpa [registryTokens] using hnd.of_cons
    by_cases hpt : p.2 = t
    · have hfind : (p :: rest).find? (fun q => q.2 = t) = some p := by
        simp [List.find?_cons, hpt]
      rw [hfind]
      rcases List.mem_cons.1 hmem with heq | hrest
      · rw [heq]
      · exfalso
        have htok : t ∈ registryTokens rest :=
          List.mem_map.2 ⟨(n, t), hrest, rfl⟩
        simp only [registryTokens, List.map_cons, List.nodup_cons] at hnd
        exact hnd.1 (hpt ▸ htok)
    · have hfind : (p :: rest).find? (fun q => q.2 = t) =
          rest.find? (fun q => q.2 = t) := by
        simp [List.find?_cons, hpt]
      rw [hfind]
      rcases List.mem_cons.1 hmem with heq | hrest
      · exact absurd (congrArg Prod.snd heq.symm) hpt
      · exact ih n t hrest hndr

theorem refreshAux_mem_some : ∀ (names : List (List Char)) (m : Registry)
    (c : List (List Char)) (n : List Char), n ∈ names →
    ∃ t, mapGet (refreshAux names m c) n = some t := by
  intro names
  induction names with
  | nil => intro m c n hn; cases hn
  | cons nn rest ih =>
    intro m c n hn
    simp only [refreshAux]
    by_cases hrest : n ∈ rest
    · exact ih _ _ _ hrest
    · have hnn : n = nn := by
        rcases List.mem_cons.1 hn with h | h
        · exact h
        · exact absurd h hrest
      subst hnn
      refine ⟨generateUniqueSanitizedName n c, ?_⟩
      rw [refreshAux_not_mem _ _ _ _ hrest, mapGet_mapSet_same]

/-- Claim C3 counterexample: with a stale entry surviving from an earlier
refresh, reverse lookup after `refresh(["x"])` finds the stale entry `"x!"`
(inserted first and sharing the token `"x"`) instead of the enumerated name
`"x"`. -/
theorem refresh_roundtrip_counterexample :
    mapGet (refresh (refresh [] [['x', '!']]) [['x']]) ['x'] = some ['x'] ∧
      lookupByToken (refresh (refresh [] [['x', '!']]) [['x']]) ['x'] =
        some ['x', '!'] ∧
      some (['x', '!'] : List Char) ≠ some (['x'] : List Char) := by
  refine ⟨by decide, by decide, by decide⟩

/-- Claim C3 (amended): after a refresh starting from the empty registry,
every enumerated name receives a token whose reverse lookup (as performed by
the dispatcher's dynamic branch) returns that very name. -/
theorem refresh_roundtrip (names : List (List Char)) (n : List Char)
    (h : n ∈ names) :
    ∃ t, mapGet (refresh [] names) n = some t ∧
      lookupByToken (refresh [] names) t = some n := by
  have hsome : ∃ t, mapGet (refresh [] names) n = some t := by
    rw [refresh_eq]
    exact refreshAux_mem_some names [] [] n h
  obtain ⟨t, ht⟩ := hsome
  refine ⟨t, ht, ?_⟩
  have hmem : (n, t) ∈ refresh [] names := mapGet_mem _ n t ht
  have hnd : (registryTokens (refresh [] names)).Nodup := by
    rw [refresh_eq]
    exact refreshAux_tokens_nodup names [] [] (by simp [registryTokens])
      (by simp [registryTokens])
  unfold lookupByToken
  rw [find?_token_of_nodup _ n t hmem hnd]
  rfl

/-! ## Dispatcher error behaviour -/

/-- Claim C9: a requested tool name that is neither a fixed tool nor an
enabled dynamic tool fails with `MethodNotFound`; an enabled dynamic name
whose stripped token matches no registry entry fails with `InvalidParams`. -/
theorem dispatch_rejects_unknown (gen : Bool) (m : Registry)
    (name : List Char) :
    (¬ isBaseTool name → ¬ isDynamicTool gen name →
      dispatch gen m name = DispatchResult.errMethodNotFound) ∧
    (isDynamicTool gen name →
      lookupByToken m (name.drop pfxChars.length) = none →
      dispatch gen m name = DispatchResult.errInvalidParams) := by
  constructor
  · intro hbase hdyn
    unfold dispatch
    rw [if_pos ⟨hbase, hdyn⟩]
  · intro hdyn hlk
    have htake := hdyn.2
    have h1 : name ≠ listShortcutsName := by
      intro he
      rw [he] at htake
      exact absurd htake (by decide)
    have h2 : name ≠ openShortcutName := by
      intro he
      rw [he] at htake
      exact absurd htake (by decide)
    have h3 : name ≠ runShortcutName := by
      intro he
      rw [he] at htake
      exact absurd htake (by decide)
    unfold dispatch
    rw [if_neg (fun hc => hc.2 hdyn), if_neg h1, if_neg h2, if_neg h3,
      if_pos hdyn]
    simp only [hlk]

theorem dispatch_rejects_unknown_witness :
    dispatch true [] "bogus".toList = DispatchResult.errMethodNotFound ∧
      dispatch true [] "run_shortcut_x".toList =
        DispatchResult.errInvalidParams :=
  ⟨(dispatch_rejects_unknown true [] "bogus".toList).1 (by decide) (by decide),
    (dispatch_rejects_unknown true [] "run_shortcut_x".toList).2 (by decide)
      (by decide)⟩

theorem refresh_upsert_witness :
    mapGet (refresh [(['a'], ['a'])] [['b']]) ['b'] =
        mapGet (refresh [] [['b']]) ['b'] ∧
      mapGet (refresh [(['a'], ['a'])] [['b']]) ['c'] =
        mapGet [(['a'], ['a'])] ['c'] :=
  ⟨(refresh_upsert [(['a'], ['a'])] [['b']] ['b']).1 (by decide),
    (refresh_upsert [(['a'], ['a'])] [['b']] ['c']).2 (by decide)⟩

theorem refresh_roundtrip_witness :
    ∃ t, mapGet (refresh [] [['x']]) ['x'] = some t ∧
      lookupByToken (refresh [] [['x']]) t = some ['x'] :=
  refresh_roundtrip [['x']] ['x'] (by decide)

theorem generate_fresh_and_bounded_witness :
    generateUniqueSanitizedName ("My Shortcut".toList) ["my_shortcut".toList] ∉
        ["my_shortcut".toList] ∧
      (generateUniqueSanitizedName ("My Shortcut".toList)
        ["my_shortcut".toList]).length ≤ maxSanitizedLength :=
  generate_fresh_and_bounded ("My Shortcut".toList) ["my_shortcut".toList]
    (by decide)

theorem collision_loop_terminates_witness :
    mkCandidate (sanitizeShortcutName ("My Shortcut".toList)) 1 ≠
        mkCandidate (sanitizeShortcutName ("My Shortcut".toList)) 2 ∧
      (∃ k, 1 ≤ k ∧ k ≤ (["my_shortcut".toList] : List (List Char)).length + 1 ∧
        mkCandidate (sanitizeShortcutName ("My Shortcut".toList)) k ∉
          ["my_shortcut".toList]) :=
  ⟨fun h =>
      absurd ((collision_loop_terminates ("My Shortcut".toList)
        ["my_shortcut".toList]).1 1 2 (by decide) (by decide) h) (by decide),
    (collision_loop_terminates ("My Shortcut".toList) ["my_shortcut".toList]).2⟩

end Shortcuts
